import Mathlib

/-!
Verification development for the bitcoin-tags repository.

The repository has two pipelines:
* `bitcoin_version.py` (Collector): crawls a paginated tag listing,
  deduplicates tag records by name, and writes a `name,date_iso` table.
* `make_plot.py` (Renderer): reads the table, parses and classifies tags,
  and builds cumulative / per-year series for plotting.

This file gives a shallow embedding of the core logic of both pipelines and
proves properties of it.  Pure Python functions become Lean functions; the
crawl loop becomes a fuel-indexed step function together with a theorem that
the fuel bound is never reached; library collaborators that the repository
only calls (the `csv` module, `datetime.fromisoformat`, `time.sleep`, HTTP)
are modelled explicitly, as documented on each such definition.
-/

/-! ### Ordered dictionaries as association lists

Python `dict` preserves insertion order; assignment to an existing key
updates the value in place.  We model a dict as an association list with
in-place update. -/

/-- Lookup in an association list (model of Python `dict.get`). -/
def alist_get {α : Type} : List (String × α) → String → Option α
  | [], _ => none
  | (k, v) :: rest, key => if k = key then some v else alist_get rest key

/-- Assignment `d[k] = v` on a Python dict: update in place if the key
exists, otherwise append at the end. -/
def dictInsert {α : Type} : List (String × α) → String → α → List (String × α)
  | [], k, v => [(k, v)]
  | (k', v') :: rest, k, v =>
      if k' = k then (k', v) :: rest else (k', v') :: dictInsert rest k v

/-! ### Collector data model (`bitcoin_version.py`) -/

/-- `TagInfo` from `bitcoin_version.py`: a tag name together with an
optional ISO date string (`None` when the page gave no machine date). -/
structure TagInfo where
  name : String
  date_iso : Option String
deriving DecidableEq

/-- The dedup mapping `{tag_name: TagInfo}` being built by the crawl. -/
abbrev DMap := List (String × TagInfo)

/-- One deduplicating insertion, translated from the loop body in
`scrape_all_tags` (`bitcoin_version.py` lines 141-149): a new name is
inserted; an existing entry is replaced only when it lacks a date and the
new observation has one. -/
def dedupInsert (m : DMap) (t : TagInfo) : DMap :=
  match alist_get m t.name with
  | none => dictInsert m t.name t
  | some existing =>
      if existing.date_iso.isNone && t.date_iso.isSome then dictInsert m t.name t else m

/-- Folding a page's observations (in order) into the dedup mapping. -/
def dedupInsertAll (m : DMap) (obs : List TagInfo) : DMap :=
  obs.foldl dedupInsert m

/-! ### Collector crawl loop (`scrape_all_tags`)

The listing source is modelled as a finite assignment of page URLs to
(page tags, optional next URL); fetching any other URL is the fatal
`raise_for_status` path.  The `while url and url not in seen_urls` loop is
embedded with a fuel parameter; `crawl_no_fuelOut` below shows the fuel
bound used by `scrape_all_tags` is never reached, i.e. the loop terminates. -/

/-- A paginated listing source: each URL maps to the tag entries parsed
from that page and the optional "Next" URL. -/
structure Source where
  pages : List (String × (List TagInfo × Option String))

/-- Observable crawl events: a page fetch, or the fixed politeness delay
(`time.sleep(delay_seconds)`). -/
inductive FetchEvent where
  | page (url : String)
  | pause
deriving DecidableEq

/-- Why the pagination loop stopped: no next link, or the next URL was
already visited (cycle guard). -/
inductive StopReason where
  | noNext
  | revisit
deriving DecidableEq

/-- Result of a completed crawl: the dedup mapping, the list of URLs
fetched (in order), the event trace, and the stop reason. -/
structure CrawlResult where
  tags : DMap
  fetched : List String
  events : List FetchEvent
  reason : StopReason
deriving DecidableEq

/-- Crawl outcome: normal completion, fatal fetch error
(`resp.raise_for_status()`), or fuel exhaustion (never reached, see
`crawl_no_fuelOut`). -/
inductive CrawlOut where
  | ok (r : CrawlResult)
  | fetchErr
  | fuelOut
deriving DecidableEq

/-- The pagination loop of `scrape_all_tags` (`bitcoin_version.py` lines
112-154).  `delayOn` models `delay_seconds > 0`.  Note the source's order:
the sleep happens after `url = next_url` whenever the next URL is present,
before the `while` condition re-checks the cycle guard. -/
def crawlLoop (src : Source) (delayOn : Bool) :
    Nat → Option String → List String → DMap → CrawlOut
  | fuel, url, seen, acc =>
    match url with
    | none => .ok ⟨acc, [], [], .noNext⟩
    | some u =>
      if u ∈ seen then .ok ⟨acc, [], [], .revisit⟩
      else
        match fuel with
        | 0 => .fuelOut
        | fuel' + 1 =>
          match alist_get src.pages u with
          | none => .fetchErr
          | some pr =>
            match crawlLoop src delayOn fuel' pr.2 (u :: seen) (dedupInsertAll acc pr.1) with
            | .ok r =>
                .ok ⟨r.tags, u :: r.fetched,
                  FetchEvent.page u ::
                    ((if pr.2.isSome && delayOn then [FetchEvent.pause] else []) ++ r.events),
                  r.reason⟩
            | e => e

/-- `scrape_all_tags`, starting from a given URL with an empty seen-set and
empty mapping.  The fuel `|pages| + 1` bounds the number of loop
iterations; `crawl_no_fuelOut` proves it suffices. -/
def scrape_all_tags (src : Source) (start : String) (delayOn : Bool) : CrawlOut :=
  crawlLoop src delayOn (src.pages.length + 1) (some start) [] []

/-- URLs of the source's pages not yet visited; the crawl loop's
termination measure. -/
def remainingPages (src : Source) (seen : List String) : Nat :=
  ((src.pages.map Prod.fst).filter (fun k => decide (¬ k ∈ seen))).length

/-! ### Table writer (`save_csv`)

The `csv` module is an external collaborator; the table file is modelled at
the row level as a list of field lists, with the header row first. -/

/-- Lexicographic comparison of char lists, as Python compares strings
(by code point, shorter prefix first). -/
def lexLe : List Char → List Char → Bool
  | [], _ => true
  | _ :: _, [] => false
  | a :: as, b :: bs => if a < b then true else if b < a then false else lexLe as bs

/-- Python tuple comparison on a pair of strings (as char lists):
lexicographic on the first component, ties broken by the second. -/
def pairLe (a b : List Char × List Char) : Bool :=
  if a.1 = b.1 then lexLe a.2 b.2 else lexLe a.1 b.1

/-- The sort key of `save_csv`: `((x.date_iso or ""), x.name)`. -/
def saveKey (t : TagInfo) : List Char × List Char :=
  ((t.date_iso.getD "").data, t.name.data)

/-- The ordering used by `save_csv`'s `sorted(...)` call. -/
def saveLe (a b : TagInfo) : Prop :=
  pairLe (saveKey a) (saveKey b) = true

instance : DecidableRel saveLe := fun _ _ => instDecidableEqBool _ _

/-- The sorted record list written by `save_csv` (`bitcoin_version.py`
lines 160-163).  Python `sorted` is a stable sort; `List.insertionSort` is
stable for the same total preorder, so it produces the same list. -/
def save_items (m : DMap) : List TagInfo :=
  List.insertionSort saveLe (m.map Prod.snd)

/-- `save_csv` as a row-level table: header row `name,date_iso`, then one
row per record with `t.date_iso or ""`. -/
def save_csv (m : DMap) : List (List String) :=
  ["name", "date_iso"] :: (save_items m).map (fun t => [t.name, t.date_iso.getD ""])

/-! ### Renderer: tag classification (`make_plot.py`) -/

/-- Boolean prefix test on char lists (Python `str.startswith`, used to
build the substring test below). -/
def isPrefixB : List Char → List Char → Bool
  | [], _ => true
  | _ :: _, [] => false
  | a :: as, b :: bs => a = b && isPrefixB as bs

/-- Substring containment `sub in hay` on char lists (Python `in`). -/
def containsSub (sub : List Char) : List Char → Bool
  | [] => sub.isEmpty
  | c :: rest => isPrefixB sub (c :: rest) || containsSub sub rest

/-- Python `str.lower`, on the ASCII range (tag names are ASCII). -/
def lowerChars (s : String) : List Char :=
  s.data.map Char.toLower

/-- Modelled from the spec: the character class `\d` of Python's `re` —
standard-library code, not in `src/` — matches any Unicode decimal digit
(category `Nd`).  These are the inclusive code-point ranges of that
category in the Unicode database shipped with CPython 3.11 (surrogates
excluded; they are not valid `Char`s). -/
def ndRanges : List (Nat × Nat) :=
  [(48, 57), (1632, 1641), (1776, 1785), (1984, 1993), (2406, 2415), (2534, 2543),
   (2662, 2671), (2790, 2799), (2918, 2927), (3046, 3055), (3174, 3183), (3302, 3311),
   (3430, 3439), (3558, 3567), (3664, 3673), (3792, 3801), (3872, 3881), (4160, 4169),
   (4240, 4249), (6112, 6121), (6160, 6169), (6470, 6479), (6608, 6617), (6784, 6793),
   (6800, 6809), (6992, 7001), (7088, 7097), (7232, 7241), (7248, 7257), (42528, 42537),
   (43216, 43225), (43264, 43273), (43472, 43481), (43504, 43513), (43600, 43609),
   (44016, 44025), (65296, 65305), (66720, 66729), (68912, 68921), (69734, 69743),
   (69872, 69881), (69942, 69951), (70096, 70105), (70384, 70393), (70736, 70745),
   (70864, 70873), (71248, 71257), (71360, 71369), (71472, 71481), (71904, 71913),
   (72016, 72025), (72784, 72793), (73040, 73049), (73120, 73129), (92768, 92777),
   (92864, 92873), (93008, 93017), (120782, 120831), (123200, 123209), (123632, 123641),
   (125264, 125273), (130032, 130041)]

/-- Membership in `re`'s `\d`: a Unicode decimal digit. -/
def isRegexDigit (c : Char) : Bool :=
  ndRanges.any (fun r => decide (r.1 ≤ c.toNat) && decide (c.toNat ≤ r.2))

/-- Match a literal `.` followed by a greedy nonempty digit group
(`\.\d+`), returning the group and the remaining text. -/
def dotDigits (cs : List Char) : Option (List Char × List Char) :=
  match cs with
  | [] => none
  | c :: rest =>
    if c = '.' then
      if rest.takeWhile isRegexDigit = [] then none
      else some (rest.takeWhile isRegexDigit, rest.dropWhile isRegexDigit)
    else none

/-- The `re.match(r"^v(\d+)\.(\d+)(?:\.(\d+))?$", name)` test of
`classify_tag`, returning the optional patch group on success.  Greedy
`\d+` followed by a non-digit token is exactly `takeWhile isRegexDigit`,
and — as Python's `$` — the match is accepted at the true end of the
string or just before a single trailing newline. -/
def vMatch (cs : List Char) : Option (Option (List Char)) :=
  match cs with
  | [] => none
  | c :: rest =>
    if c = 'v' then
      if rest.takeWhile isRegexDigit = [] then none
      else
        (dotDigits (rest.dropWhile isRegexDigit)).bind (fun pr2 =>
          if pr2.2 = [] ∨ pr2.2 = ['\n'] then some none
          else
            (dotDigits pr2.2).bind (fun pr4 =>
              if pr4.2 = [] ∨ pr4.2 = ['\n'] then some (some pr4.1) else none))
    else none

/-- `classify_tag` (`make_plot.py` lines 49-70): pre-release iff the
lowercased name contains `rc`, `beta`, `alpha` or `test`; major iff the
name matches `v<d>.<d>` or `v<d>.<d>.<d>`, is not a pre-release, and the
patch group is absent or the string `"0"`. -/
def classify_tag (name : String) : Bool × Bool :=
  let lower := lowerChars name
  let isPre :=
    containsSub "rc".data lower || containsSub "beta".data lower ||
    containsSub "alpha".data lower || containsSub "test".data lower
  let major :=
    (vMatch name.data).elim false (fun patch =>
      if isPre then false else patch.elim true (fun p => decide (p = ['0'])))
  (isPre, major)

/-! ### Renderer: date parsing (`parse_iso8601`)

`datetime.fromisoformat` is standard-library code, an external collaborator
of the repository; only the trailing-`Z` normalization around it is in
`make_plot.py`. -/

/-- A parsed timezone-aware-or-naive instant.  `tzOffsetMinutes = none`
models a naive datetime (no offset in the string). -/
structure DateTime where
  year : Nat
  month : Nat
  day : Nat
  hour : Nat
  minute : Nat
  second : Nat
  tzOffsetMinutes : Option Int
deriving DecidableEq

/-- Numeric value of a decimal digit character. -/
def digitVal (c : Char) : Nat := c.toNat - '0'.toNat

/-- Read exactly `n` decimal digits, most significant first, returning the
value and the remaining characters. -/
def readFixedNat : Nat → Nat → List Char → Option (Nat × List Char)
  | 0, acc, cs => some (acc, cs)
  | _ + 1, _, [] => none
  | n + 1, acc, c :: cs =>
      if c.isDigit then readFixedNat n (acc * 10 + digitVal c) cs else none

/-- Consume one expected character. -/
def expectChar (c : Char) : List Char → Option (List Char)
  | [] => none
  | x :: xs => if x = c then some xs else none

/-- Gregorian leap year. -/
def isLeap (y : Nat) : Bool :=
  (y % 4 == 0 && !(y % 100 == 0)) || y % 400 == 0

/-- Days in a month of a given year. -/
def daysInMonth (y m : Nat) : Nat :=
  if m = 2 then (if isLeap y then 29 else 28)
  else if m = 4 ∨ m = 6 ∨ m = 9 ∨ m = 11 then 30 else 31

/-- Field-range validation performed by the datetime constructor. -/
def mkValidDateTime (y mo d h mi s : Nat) (tz : Option Int) : Option DateTime :=
  if 1 ≤ y ∧ y ≤ 9999 ∧ 1 ≤ mo ∧ mo ≤ 12 ∧ 1 ≤ d ∧ d ≤ daysInMonth y mo ∧
      h ≤ 23 ∧ mi ≤ 59 ∧ s ≤ 59 then
    some ⟨y, mo, d, h, mi, s, tz⟩
  else none

/-- Time-of-day part `HH[:MM[:SS]]`. -/
def parseTimePart (cs : List Char) : Option (Nat × Nat × Nat × List Char) := do
  let (h, cs1) ← readFixedNat 2 0 cs
  match cs1 with
  | ':' :: cs2 => do
    let (mi, cs3) ← readFixedNat 2 0 cs2
    match cs3 with
    | ':' :: cs4 => do
      let (s, cs5) ← readFixedNat 2 0 cs4
      some (h, mi, s, cs5)
    | _ => some (h, mi, 0, cs3)
  | _ => some (h, 0, 0, cs1)

/-- Modelled from the spec: `datetime.fromisoformat` — standard-library
code, not in `src/` — restricted to the shapes the table can hold:
`YYYY-MM-DD[*HH[:MM[:SS]][(+|-)HH:MM]]` with `*` any single separator
character, validated field ranges, and an optional UTC offset (fractional
seconds are not modelled). -/
def fromisoformatChars (cs : List Char) : Option DateTime := do
  let (y, cs1) ← readFixedNat 4 0 cs
  let cs2 ← expectChar '-' cs1
  let (mo, cs3) ← readFixedNat 2 0 cs2
  let cs4 ← expectChar '-' cs3
  let (d, cs5) ← readFixedNat 2 0 cs4
  match cs5 with
  | [] => mkValidDateTime y mo d 0 0 0 none
  | _sep :: rest => do
    let (h, mi, s, cs6) ← parseTimePart rest
    match cs6 with
    | [] => mkValidDateTime y mo d h mi s none
    | sign :: cs7 =>
      if sign = '+' ∨ sign = '-' then do
        let (oh, cs8) ← readFixedNat 2 0 cs7
        let cs9 ← expectChar ':' cs8
        let (om, cs10) ← readFixedNat 2 0 cs9
        if cs10 = [] ∧ oh ≤ 23 ∧ om ≤ 59 then
          let mag : Int := oh * 60 + om
          mkValidDateTime y mo d h mi s (some (if sign = '-' then -mag else mag))
        else none
      else none

/-- `parse_iso8601` (`make_plot.py` lines 38-46): rewrite a trailing `Z`
to the explicit offset `+00:00`, then hand off to `fromisoformat`. -/
def parse_iso8601 (s : String) : Option DateTime :=
  let cs := s.data
  let cs := if cs.getLast? = some 'Z' then cs.dropLast ++ "+00:00".data else cs
  fromisoformatChars cs

/-- Days since 1970-01-01 of a Gregorian date (standard civil-calendar
computation; all intermediate quantities are nonnegative for years ≥ 1). -/
def daysFromCivil (y m d : Int) : Int :=
  let y2 := if m ≤ 2 then y - 1 else y
  let era := y2 / 400
  let yoe := y2 - era * 400
  let mp := (m + 9) % 12
  let doy := (153 * mp + 2) / 5 + d - 1
  let doe := yoe * 365 + yoe / 4 - yoe / 100 + doy
  era * 146097 + doe - 719468

/-- Absolute timestamp (seconds since epoch) of a parsed instant; naive
instants are compared as if at UTC.  This is the ordering `datetime`
comparison gives on timezone-aware values, used by `tags.sort`. -/
def toSec (dt : DateTime) : Int :=
  daysFromCivil dt.year dt.month dt.day * 86400 +
    dt.hour * 3600 + dt.minute * 60 + dt.second - (dt.tzOffsetMinutes.getD 0) * 60

/-! ### Renderer: loading and classifying rows (`load_tags`) -/

/-- `Tag` from `make_plot.py`: name, parsed date, and the two
classification flags. -/
structure Tag where
  name : String
  date : DateTime
  is_prerelease : Bool
  is_major : Bool
deriving DecidableEq

/-- Chronological comparison used by `tags.sort(key=lambda t: t.date)`. -/
def dateLe (a b : Tag) : Prop := toSec a.date ≤ toSec b.date

instance : DecidableRel dateLe := fun a b => Int.decLe (toSec a.date) (toSec b.date)

instance : IsTotal Tag dateLe := ⟨fun a b => Int.le_total (toSec a.date) (toSec b.date)⟩

instance : IsTrans Tag dateLe :=
  ⟨fun _ _ _ h1 h2 => Int.le_trans h1 h2⟩

/-- Python's `list.sort` is stable; `List.insertionSort` is stable for the
same total preorder, so it yields the same list. -/
def sortTags (l : List Tag) : List Tag := List.insertionSort dateLe l

/-- The reading half of `load_tags` modelled at the row level: the `csv`
module (`csv.DictReader`) is an external collaborator, so the file is a
list of rows of fields, the first row being the header; each data row is
read by header name, missing fields giving `none`. -/
def dictReadRows (file : List (List String)) : List (Option String × Option String) :=
  match file with
  | [] => []
  | header :: rows =>
      rows.map (fun r => (r.get? (header.indexOf "name"), r.get? (header.indexOf "date_iso")))

/-- The accumulation loop of `load_tags`, translated statement by
statement (append the parsed record, skip otherwise). -/
def collectTags : List (Option String × Option String) → List Tag
  | [] => []
  | row :: rest =>
    if row.1.getD "" = "" ∨ row.2.getD "" = "" then collectTags rest
    else
      (parse_iso8601 (row.2.getD "")).elim (collectTags rest)
        (fun d => ⟨row.1.getD "", d, (classify_tag (row.1.getD "")).1,
          (classify_tag (row.1.getD "")).2⟩ :: collectTags rest)

/-- `load_tags` on an already-read row list: filter, then sort
chronologically. -/
def loadFromRows (rows : List (Option String × Option String)) : List Tag :=
  sortTags (collectTags rows)

/-- `load_tags` (`make_plot.py` lines 73-98) on a row-level table file. -/
def load_tags (file : List (List String)) : List Tag :=
  loadFromRows (dictReadRows file)

/-- The stable-series loop of `build_cumulative_series` (`make_plot.py`
lines 122-128): walk the tags, counting non-prerelease ones, and record
`(tag, cumulative_stable_count)` at each stable tag. -/
def stablePairs : List Tag → Nat → List (Tag × Nat)
  | [], _ => []
  | t :: ts, cum =>
      if t.is_prerelease then stablePairs ts cum
      else (t, cum + 1) :: stablePairs ts (cum + 1)

/-- `build_cumulative_series` (`make_plot.py` lines 109-130): the all-tags
series `(dates, 1..n)`, the stable series, and the stable `(tag, count)`
pairs. -/
def build_cumulative_series (tags : List Tag) :
    (List DateTime × List Nat) × (List DateTime × List Nat) × List (Tag × Nat) :=
  ((tags.map (fun t => t.date), List.range' 1 tags.length),
   ((stablePairs tags 0).map (fun p => p.1.date), (stablePairs tags 0).map (fun p => p.2)),
   stablePairs tags 0)

/-- The tags annotated in the top panel of `make_plot` (lines 178-180):
the stable pairs restricted to `is_major`. -/
def majorAnnotations (tags : List Tag) : List (Tag × Nat) :=
  (stablePairs tags 0).filter (fun p => p.1.is_major)

/-- The years of all tags, in tag order (argument of the `Counter` calls
in `make_plot`, lines 137-138). -/
def tagYears (tags : List Tag) : List Nat :=
  tags.map (fun t => t.date.year)

/-- `years = sorted(all_per_year.keys())` (`make_plot.py` line 140): the
distinct years present, ascending. -/
def plotYears (tags : List Tag) : List Nat :=
  List.insertionSort (· ≤ ·) (tagYears tags).dedup

/-- `all_counts_y` (`make_plot.py` line 141): per-year all-tag counts. -/
def all_counts_y (tags : List Tag) : List Nat :=
  (plotYears tags).map (fun y => (tagYears tags).count y)

/-- `stable_counts_y` (`make_plot.py` line 142): per-year stable counts,
zero for years with no stable tag. -/
def stable_counts_y (tags : List Tag) : List Nat :=
  (plotYears tags).map (fun y => (tagYears (tags.filter (fun t => !t.is_prerelease))).count y)

/-! ## Lemmas about the dictionary model -/

theorem alist_get_dictInsert_self {α : Type} (m : List (String × α)) (k : String) (v : α) :
    alist_get (dictInsert m k v) k = some v := by
  induction m with
  | nil => simp [dictInsert, alist_get]
  | cons hd tl ih =>
    obtain ⟨k', v'⟩ := hd
    by_cases hk : k' = k
    · simp [dictInsert, hk, alist_get]
    · simp [dictInsert, hk, alist_get, ih]

theorem alist_get_dictInsert_ne {α : Type} (m : List (String × α)) (k key : String) (v : α)
    (h : key ≠ k) : alist_get (dictInsert m k v) key = alist_get m key := by
  have h' : ¬ k = key := fun hc => h hc.symm
  induction m with
  | nil => simp [dictInsert, alist_get, h']
  | cons hd tl ih =>
    obtain ⟨k', v'⟩ := hd
    by_cases hk : k' = k
    · subst hk
      simp [dictInsert, alist_get, h']
    · simp [dictInsert, hk, alist_get, ih]

theorem alist_get_mem_snd {α : Type} (m : List (String × α)) (k : String) (v : α)
    (h : alist_get m k = some v) : v ∈ m.map Prod.snd := by
  induction m with
  | nil => simp [alist_get] at h
  | cons hd tl ih =>
    obtain ⟨k', v'⟩ := hd
    by_cases hk : k' = k
    · simp [alist_get, hk] at h
      simp [h]
    · simp [alist_get, hk] at h
      simp [ih h]

theorem alist_get_mem_fst {α : Type} (m : List (String × α)) (k : String) (v : α)
    (h : alist_get m k = some v) : k ∈ m.map Prod.fst := by
  induction m with
  | nil => simp [alist_get] at h
  | cons hd tl ih =>
    obtain ⟨k', v'⟩ := hd
    by_cases hk : k' = k
    · simp [hk]
    · simp [alist_get, hk] at h
      simp [ih h]

/-! ## Lemmas about deduplication -/

theorem dedupInsert_preserves_dated (m : DMap) (key : String) (r : TagInfo) (t : TagInfo)
    (hm : alist_get m key = some r) (hd : r.date_iso.isSome = true) :
    alist_get (dedupInsert m t) key = some r := by
  by_cases hk : t.name = key
  · subst hk
    unfold dedupInsert
    rw [hm]
    have : r.date_iso.isNone = false := by
      cases h : r.date_iso <;> simp [h] at hd ⊢
    simp [this, hm]
  · unfold dedupInsert
    have hne : key ≠ t.name := fun hc => hk hc.symm
    match halt : alist_get m t.name with
    | none => rw [alist_get_dictInsert_ne m t.name key t hne, hm]
    | some existing =>
      by_cases hc : existing.date_iso.isNone && t.date_iso.isSome
      · simp only [hc, if_true]
        rw [alist_get_dictInsert_ne m t.name key t hne, hm]
      · simp only [hc, if_false]
        exact hm

theorem dedupInsertAll_preserves_dated (obs : List TagInfo) (m : DMap) (key : String)
    (r : TagInfo) (hm : alist_get m key = some r) (hd : r.date_iso.isSome = true) :
    alist_get (dedupInsertAll m obs) key = some r := by
  induction obs generalizing m with
  | nil => exact hm
  | cons t rest ih =>
    have step := dedupInsert_preserves_dated m key r t hm hd
    simpa [dedupInsertAll, List.foldl_cons] using ih (dedupInsert m t) step

/-- C1: for a name not yet in the dedup mapping, inserting a dateless and
a dated observation of that name in either order leaves the dated record
as the final value, and a stored dated record is never replaced by a
dateless observation of the same name. -/
theorem dedup_order_independent (m : DMap) (nm d : String)
    (h : alist_get m nm = none) :
    alist_get (dedupInsert (dedupInsert m ⟨nm, none⟩) ⟨nm, some d⟩) nm =
      some ⟨nm, some d⟩
    ∧ alist_get (dedupInsert (dedupInsert m ⟨nm, some d⟩) ⟨nm, none⟩) nm =
      some ⟨nm, some d⟩
    ∧ ∀ (m' : DMap) (r : TagInfo) (d' : String),
        alist_get m' nm = some r → r.date_iso = some d' →
        alist_get (dedupInsert m' ⟨nm, none⟩) nm = some r := by
  refine ⟨?_, ?_, ?_⟩
  · have h1 : dedupInsert m ⟨nm, none⟩ = dictInsert m nm ⟨nm, none⟩ := by
      unfold dedupInsert; rw [h]
    rw [h1]
    unfold dedupInsert
    rw [alist_get_dictInsert_self]
    simp [alist_get_dictInsert_self]
  · have h1 : dedupInsert m ⟨nm, some d⟩ = dictInsert m nm ⟨nm, some d⟩ := by
      unfold dedupInsert; rw [h]
    rw [h1]
    unfold dedupInsert
    rw [alist_get_dictInsert_self]
    simp [alist_get_dictInsert_self]
  · intro m' r d' hm hd
    exact dedupInsert_preserves_dated m' nm r ⟨nm, none⟩ hm (by simp [hd])

theorem dedup_order_independent_witness :
    (alist_get (dedupInsert (dedupInsert [] ⟨"v1.0", none⟩)
        ⟨"v1.0", some "2020-01-01T00:00:00Z"⟩) "v1.0" =
      some ⟨"v1.0", some "2020-01-01T00:00:00Z"⟩)
    ∧ (alist_get (dedupInsert (dedupInsert [] ⟨"v1.0", some "2020-01-01T00:00:00Z"⟩)
        ⟨"v1.0", none⟩) "v1.0" =
      some ⟨"v1.0", some "2020-01-01T00:00:00Z"⟩)
    ∧ alist_get (dedupInsert [("v1.0", ⟨"v1.0", some "2020-01-01T00:00:00Z"⟩)]
        ⟨"v1.0", none⟩) "v1.0" = some ⟨"v1.0", some "2020-01-01T00:00:00Z"⟩ :=
  have h := dedup_order_independent [] "v1.0" "2020-01-01T00:00:00Z" rfl
  ⟨h.1, h.2.1,
   h.2.2 [("v1.0", ⟨"v1.0", some "2020-01-01T00:00:00Z"⟩)]
     ⟨"v1.0", some "2020-01-01T00:00:00Z"⟩ "2020-01-01T00:00:00Z" rfl rfl⟩

/-- C10: once a name maps to a dated record, no later observation ever
changes that entry, so the record reaches the final table's value list;
in particular with two dated observations of one name the first wins. -/
theorem dedup_first_dated_wins (m : DMap) (key : String) (r : TagInfo) (obs : List TagInfo)
    (hm : alist_get m key = some r) (hd : r.date_iso.isSome = true) :
    alist_get (dedupInsertAll m obs) key = some r
    ∧ r ∈ (dedupInsertAll m obs).map Prod.snd
    ∧ ∀ (n d1 d2 : String),
        alist_get (dedupInsertAll [] [⟨n, some d1⟩, ⟨n, some d2⟩]) n = some ⟨n, some d1⟩ := by
  have hall := dedupInsertAll_preserves_dated obs m key r hm hd
  refine ⟨hall, alist_get_mem_snd _ _ _ hall, ?_⟩
  intro n d1 d2
  have h1 : dedupInsert [] ⟨n, some d1⟩ = [(n, ⟨n, some d1⟩)] := by
    simp [dedupInsert, alist_get, dictInsert]
  have h2 : alist_get [(n, (⟨n, some d1⟩ : TagInfo))] n = some ⟨n, some d1⟩ := by
    simp [alist_get]
  simp only [dedupInsertAll, List.foldl_cons, List.foldl_nil, h1]
  exact dedupInsert_preserves_dated _ n _ ⟨n, some d2⟩ h2 rfl

theorem dedup_first_dated_wins_witness :
    (alist_get (dedupInsertAll [("v1.0", ⟨"v1.0", some "2020-01-01T00:00:00Z"⟩)]
        [⟨"v1.0", some "2021-05-05T00:00:00Z"⟩, ⟨"v1.0", none⟩]) "v1.0" =
      some ⟨"v1.0", some "2020-01-01T00:00:00Z"⟩)
    ∧ ((⟨"v1.0", some "2020-01-01T00:00:00Z"⟩ : TagInfo) ∈
        (dedupInsertAll [("v1.0", ⟨"v1.0", some "2020-01-01T00:00:00Z"⟩)]
          [⟨"v1.0", some "2021-05-05T00:00:00Z"⟩, ⟨"v1.0", none⟩]).map Prod.snd)
    ∧ alist_get (dedupInsertAll []
        [⟨"va", some "2019-01-01T00:00:00Z"⟩, ⟨"va", some "2022-01-01T00:00:00Z"⟩]) "va" =
      some ⟨"va", some "2019-01-01T00:00:00Z"⟩ :=
  have h := dedup_first_dated_wins [("v1.0", ⟨"v1.0", some "2020-01-01T00:00:00Z"⟩)]
    "v1.0" ⟨"v1.0", some "2020-01-01T00:00:00Z"⟩
    [⟨"v1.0", some "2021-05-05T00:00:00Z"⟩, ⟨"v1.0", none⟩] rfl rfl
  ⟨h.1, h.2.1, h.2.2 "va" "2019-01-01T00:00:00Z" "2022-01-01T00:00:00Z"⟩

/-! ## Lemmas about the pagination loop -/

theorem filter_length_mono {α : Type} (l : List α) (p q : α → Bool)
    (h : ∀ a ∈ l, p a = true → q a = true) :
    (l.filter p).length ≤ (l.filter q).length := by
  induction l with
  | nil => simp
  | cons a l ih =>
    have ih' := ih (fun x hx hp => h x (List.mem_cons_of_mem a hx) hp)
    by_cases hp : p a = true
    · have hq := h a (List.mem_cons_self a l) hp
      simp [List.filter_cons, hp, hq]
      omega
    · simp only [List.filter_cons]
      rw [if_neg (by simpa using hp)]
      by_cases hq : q a = true
      · rw [if_pos hq]
        simp only [List.length_cons]
        omega
      · rw [if_neg (by simpa using hq)]
        exact ih'

theorem filter_notmem_cons_lt (l : List String) (u : String) (seen : List String)
    (hu : u ∈ l) (hs : u ∉ seen) :
    (l.filter (fun k => decide (¬ k ∈ u :: seen))).length <
      (l.filter (fun k => decide (¬ k ∈ seen))).length := by
  induction l with
  | nil => simp at hu
  | cons a l ih =>
    simp only [List.filter_cons]
    by_cases ha : a = u
    · subst ha
      rw [if_neg (by simp), if_pos (by simpa using hs)]
      simp only [List.length_cons]
      refine Nat.lt_succ_of_le (filter_length_mono l _ _ ?_)
      intro x _ hp
      simp only [decide_eq_true_eq] at hp ⊢
      exact fun hxs => hp (List.mem_cons_of_mem _ hxs)
    · have hu' : u ∈ l := by
        cases List.mem_cons.mp hu with
        | inl h => exact absurd h.symm ha
        | inr h => exact h
      have hagree : (decide (¬ a ∈ u :: seen)) = (decide (¬ a ∈ seen)) := by
        by_cases hm : a ∈ seen
        · simp [hm]
        · simp [hm, List.mem_cons, ha]
      rw [hagree]
      by_cases hdec : (a ∈ seen)
      · rw [if_neg (by simpa using hdec), if_neg (by simpa using hdec)]
        exact ih hu'
      · rw [if_pos (by simpa using hdec), if_pos (by simpa using hdec)]
        simp only [List.length_cons]
        exact Nat.succ_lt_succ (ih hu')

theorem remainingPages_cons_lt (src : Source) (u : String) (seen : List String)
    (hu : u ∈ src.pages.map Prod.fst) (hs : u ∉ seen) :
    remainingPages src (u :: seen) < remainingPages src seen :=
  filter_notmem_cons_lt (src.pages.map Prod.fst) u seen hu hs

theorem remainingPages_nil (src : Source) : remainingPages src [] = src.pages.length := by
  unfold remainingPages
  have : ∀ l : List String, l.filter (fun k => decide (¬ k ∈ ([] : List String))) = l := by
    intro l
    induction l with
    | nil => rfl
    | cons a l ih => simp [List.filter_cons, ih]
  rw [this, List.length_map]

/-- The fuel bound is never the reason the crawl loop stops: with more fuel
than unvisited source pages, the result is never `fuelOut`. -/
theorem crawl_no_fuelOut (src : Source) (d : Bool) :
    ∀ (fuel : Nat) (url : Option String) (seen : List String) (acc : DMap),
      remainingPages src seen < fuel →
      crawlLoop src d fuel url seen acc ≠ CrawlOut.fuelOut := by
  intro fuel
  induction fuel with
  | zero => intro url seen acc h; exact absurd h (Nat.not_lt_zero _)
  | succ f ih =>
    intro url seen acc h
    cases url with
    | none => simp [crawlLoop]
    | some u =>
      by_cases hs : u ∈ seen
      · simp [crawlLoop, hs]
      · cases halt : alist_get src.pages u with
        | none => simp [crawlLoop, hs, halt]
        | some pr =>
          have hmem := alist_get_mem_fst _ _ _ halt
          have hlt : remainingPages src (u :: seen) < f :=
            Nat.lt_of_lt_of_le (remainingPages_cons_lt src u seen hmem hs)
              (Nat.lt_succ_iff.mp h)
          have hrec := ih pr.2 (u :: seen) (dedupInsertAll acc pr.1) hlt
          simp only [crawlLoop, hs, if_false, halt]
          cases hr : crawlLoop src d f pr.2 (u :: seen) (dedupInsertAll acc pr.1) with
          | ok r => simp
          | fetchErr => simp
          | fuelOut => exact absurd hr hrec

/-- Every completed crawl fetched pairwise distinct URLs, none of them
already in the seen-set it started from. -/
theorem crawl_fetched_invariant (src : Source) (d : Bool) :
    ∀ (fuel : Nat) (url : Option String) (seen : List String) (acc : DMap) (r : CrawlResult),
      crawlLoop src d fuel url seen acc = CrawlOut.ok r →
      r.fetched.Nodup ∧ ∀ f ∈ r.fetched, f ∉ seen := by
  intro fuel
  induction fuel with
  | zero =>
    intro url seen acc r h
    cases url with
    | none =>
      simp only [crawlLoop] at h
      cases h
      simp
    | some u =>
      by_cases hs : u ∈ seen
      · simp only [crawlLoop, hs, if_true] at h
        cases h
        simp
      · simp [crawlLoop, hs] at h
  | succ f ih =>
    intro url seen acc r h
    cases url with
    | none =>
      simp only [crawlLoop] at h
      cases h
      simp
    | some u =>
      by_cases hs : u ∈ seen
      · simp only [crawlLoop, hs, if_true] at h
        cases h
        simp
      · cases halt : alist_get src.pages u with
        | none => simp [crawlLoop, hs, halt] at h
        | some pr =>
          simp only [crawlLoop, hs, if_false, halt] at h
          cases hr : crawlLoop src d f pr.2 (u :: seen) (dedupInsertAll acc pr.1) with
          | ok r' =>
            rw [hr] at h
            cases h
            obtain ⟨hnd, hdisj⟩ := ih pr.2 (u :: seen) (dedupInsertAll acc pr.1) r' hr
            constructor
            · exact List.Nodup.cons
                (fun hmem => (hdisj u hmem) (List.mem_cons_self u seen)) hnd
            · intro f hf
              cases List.mem_cons.mp hf with
              | inl hfu => exact hfu ▸ hs
              | inr hfr => exact fun hfs => (hdisj f hfr) (List.mem_cons_of_mem u hfs)
          | fetchErr => rw [hr] at h; cases h
          | fuelOut => rw [hr] at h; cases h

theorem crawl_ok_fetched_nil_revisit (src : Source) (d : Bool) (fuel : Nat) (v : String)
    (seen : List String) (acc : DMap) (r : CrawlResult)
    (h : crawlLoop src d fuel (some v) seen acc = CrawlOut.ok r) (hf : r.fetched = []) :
    r.reason = StopReason.revisit := by
  cases fuel with
  | zero =>
    by_cases hs : v ∈ seen
    · simp only [crawlLoop, hs, if_true] at h
      cases h
      rfl
    · simp [crawlLoop, hs] at h
  | succ f =>
    by_cases hs : v ∈ seen
    · simp only [crawlLoop, hs, if_true] at h
      cases h
      rfl
    · cases halt : alist_get src.pages v with
      | none => simp [crawlLoop, hs, halt] at h
      | some pr =>
        simp only [crawlLoop, hs, if_false, halt] at h
        cases hr : crawlLoop src d f pr.2 (v :: seen) (dedupInsertAll acc pr.1) with
        | ok r' =>
          rw [hr] at h
          cases h
          simp at hf
        | fetchErr => rw [hr] at h; cases h
        | fuelOut => rw [hr] at h; cases h

/-- The event-trace shape of a completed crawl: one `page` event per
fetched URL, a `pause` after every fetch that yielded a next link — which
is every fetch but the last when the loop stops for lack of a next link,
and every fetch including the last when it stops on an already-visited
next link. -/
def expectedEvents : List String → StopReason → Bool → List FetchEvent
  | [], _, _ => []
  | u :: rest, reason, d =>
      FetchEvent.page u ::
        ((if d && (!rest.isEmpty || decide (reason = StopReason.revisit))
            then [FetchEvent.pause] else []) ++ expectedEvents rest reason d)

theorem crawl_events_shape (src : Source) (d : Bool) :
    ∀ (fuel : Nat) (url : Option String) (seen : List String) (acc : DMap) (r : CrawlResult),
      crawlLoop src d fuel url seen acc = CrawlOut.ok r →
      r.events = expectedEvents r.fetched r.reason d := by
  intro fuel
  induction fuel with
  | zero =>
    intro url seen acc r h
    cases url with
    | none =>
      simp only [crawlLoop] at h
      cases h
      rfl
    | some u =>
      by_cases hs : u ∈ seen
      · simp only [crawlLoop, hs, if_true] at h
        cases h
        rfl
      · simp [crawlLoop, hs] at h
  | succ f ih =>
    intro url seen acc r h
    cases url with
    | none =>
      simp only [crawlLoop] at h
      cases h
      rfl
    | some u =>
      by_cases hs : u ∈ seen
      · simp only [crawlLoop, hs, if_true] at h
        cases h
        rfl
      · cases halt : alist_get src.pages u with
        | none => simp [crawlLoop, hs, halt] at h
        | some pr =>
          simp only [crawlLoop, hs, if_false, halt] at h
          cases hr : crawlLoop src d f pr.2 (u :: seen) (dedupInsertAll acc pr.1) with
          | ok r' =>
            rw [hr] at h
            cases h
            have ihre := ih pr.2 (u :: seen) (dedupInsertAll acc pr.1) r' hr
            simp only [expectedEvents, ihre]
            cases hnext : pr.2 with
            | none =>
              rw [hnext] at hr
              simp only [crawlLoop] at hr
              cases hr
              simp [expectedEvents]
            | some v =>
              rw [hnext] at hr
              cases hfet : r'.fetched with
              | nil =>
                have := crawl_ok_fetched_nil_revisit src d f v (u :: seen)
                  (dedupInsertAll acc pr.1) r' hr hfet
                simp [hfet, this]
              | cons x xs => simp [hfet]
          | fetchErr => rw [hr] at h; cases h
          | fuelOut => rw [hr] at h; cases h

/-- C4: the pagination loop terminates for every (finite) listing source —
the fuel bound of `scrape_all_tags` is never the reason it stops — it
fetches pairwise-distinct page URLs over the whole run, and it stops
immediately when the next address is absent or already visited. -/
theorem crawl_terminates_each_url_once (src : Source) (start : String) (d : Bool) :
    scrape_all_tags src start d ≠ CrawlOut.fuelOut
    ∧ (∀ r, scrape_all_tags src start d = CrawlOut.ok r → r.fetched.Nodup)
    ∧ (∀ (fuel : Nat) (seen : List String) (acc : DMap),
        crawlLoop src d fuel none seen acc = CrawlOut.ok ⟨acc, [], [], StopReason.noNext⟩)
    ∧ (∀ (fuel : Nat) (u : String) (seen : List String) (acc : DMap), u ∈ seen →
        crawlLoop src d fuel (some u) seen acc = CrawlOut.ok ⟨acc, [], [], StopReason.revisit⟩) := by
  refine ⟨?_, ?_, ?_, ?_⟩
  · apply crawl_no_fuelOut
    rw [remainingPages_nil]
    exact Nat.lt_succ_self _
  · intro r h
    exact (crawl_fetched_invariant src d _ _ _ _ r h).1
  · intro fuel seen acc
    cases fuel <;> simp [crawlLoop]
  · intro fuel u seen acc hu
    cases fuel <;> simp [crawlLoop, hu]

/-- A three-page listing whose last page links back to the first: the
cycle witness from the spec's testable properties. -/
def cycSrc : Source :=
  ⟨[("p1", ([⟨"v1.0", some "2011-01-01T00:00:00Z"⟩], some "p2")),
    ("p2", ([⟨"v2.0", none⟩], some "p3")),
    ("p3", ([⟨"v2.0", some "2012-01-01T00:00:00Z"⟩], some "p1"))]⟩

theorem crawl_terminates_each_url_once_witness :
    scrape_all_tags cycSrc "p1" true ≠ CrawlOut.fuelOut
    ∧ (["p1", "p2", "p3"] : List String).Nodup
    ∧ crawlLoop cycSrc true 5 (some "p1") ["p1"] [] =
        CrawlOut.ok ⟨[], [], [], StopReason.revisit⟩ :=
  ⟨(crawl_terminates_each_url_once cycSrc "p1" true).1,
   (crawl_terminates_each_url_once cycSrc "p1" true).2.1
     ⟨[("v1.0", ⟨"v1.0", some "2011-01-01T00:00:00Z"⟩),
       ("v2.0", ⟨"v2.0", some "2012-01-01T00:00:00Z"⟩)],
      ["p1", "p2", "p3"],
      [FetchEvent.page "p1", FetchEvent.pause, FetchEvent.page "p2", FetchEvent.pause,
       FetchEvent.page "p3", FetchEvent.pause],
      StopReason.revisit⟩ (by decide),
   (crawl_terminates_each_url_once cycSrc "p1" true).2.2.2 5 "p1" ["p1"] []
     (List.mem_cons_self "p1" [])⟩

/-- A single page whose next link points back to itself. -/
def selfSrc : Source := ⟨[("p", ([], some "p"))]⟩

/-- C7 counterexample: with the delay enabled, a crawl that terminates via
the cycle guard (next address already visited) sleeps once more after the
final page fetch — the event after the last `page` event is a `pause`. -/
theorem delay_after_final_fetch_on_cycle :
    scrape_all_tags selfSrc "p" true =
      CrawlOut.ok ⟨[], ["p"], [FetchEvent.page "p", FetchEvent.pause], StopReason.revisit⟩ := by
  decide

/-- C7 (amended): the delay is taken exactly after each fetch that yielded
a next address.  Hence delays fall between successive fetches and no delay
follows the final fetch whenever the loop stops for lack of a next
address; when it stops because the next address was already visited, one
delay does follow the final fetch (given a positive configured delay). -/
theorem crawl_delay_placement (src : Source) (start : String) (d : Bool) (r : CrawlResult)
    (h : scrape_all_tags src start d = CrawlOut.ok r) :
    r.events = expectedEvents r.fetched r.reason d :=
  crawl_events_shape src d (src.pages.length + 1) (some start) [] [] r h

/-- A two-page listing ending with no next link. -/
def lineSrc : Source := ⟨[("q1", ([], some "q2")), ("q2", ([], none))]⟩

theorem crawl_delay_placement_witness :
    ([FetchEvent.page "q1", FetchEvent.pause, FetchEvent.page "q2"] : List FetchEvent) =
      expectedEvents ["q1", "q2"] StopReason.noNext true :=
  crawl_delay_placement lineSrc "q1" true
    ⟨[], ["q1", "q2"], [FetchEvent.page "q1", FetchEvent.pause, FetchEvent.page "q2"],
     StopReason.noNext⟩ (by decide)

/-! ## Lemmas about the tag classifier -/

theorem isPrefixB_iff (sub : List Char) : ∀ (hay : List Char),
    isPrefixB sub hay = true ↔ sub <+: hay := by
  induction sub with
  | nil => intro hay; simp [isPrefixB, List.nil_prefix]
  | cons a as ih =>
    intro hay
    cases hay with
    | nil => simp [isPrefixB, List.prefix_nil]
    | cons b bs => simp [isPrefixB, List.cons_prefix_cons, ih]

theorem containsSub_iff (sub : List Char) : ∀ (hay : List Char),
    containsSub sub hay = true ↔ sub <:+: hay := by
  intro hay
  induction hay with
  | nil => simp [containsSub, List.isEmpty_iff, List.infix_nil]
  | cons c rest ih =>
    simp [containsSub, Bool.or_eq_true, isPrefixB_iff, ih, List.infix_cons_iff]

/-- A nonempty all-ASCII-digit character group: the strict
`v<int>.<int>[.<int>]` reading of the claim, under which the whole name is
the match and digits are `0`-`9`.  The counterexample below shows the
program is not equivalent to this reading. -/
def digitsOnly (cs : List Char) : Prop :=
  cs ≠ [] ∧ ∀ c ∈ cs, c.isDigit = true

instance (cs : List Char) : Decidable (digitsOnly cs) := by
  unfold digitsOnly; infer_instance

/-- A nonempty group of `re` digits (Unicode decimal digits), the
denotation of a `\d+` group in Python. -/
def digitGroup (cs : List Char) : Prop :=
  cs ≠ [] ∧ ∀ c ∈ cs, isRegexDigit c = true

instance (cs : List Char) : Decidable (digitGroup cs) := by
  unfold digitGroup; infer_instance

/-- How an optional patch group appears in the matched text. -/
def patchPart : Option (List Char) → List Char
  | none => []
  | some d3 => '.' :: d3

theorem takeWhile_all (p : Char → Bool) :
    ∀ (d : List Char), (∀ c ∈ d, p c = true) →
      d.takeWhile p = d ∧ d.dropWhile p = [] := by
  intro d
  induction d with
  | nil => intro _; simp
  | cons a l ih =>
    intro h
    have ha := h a (List.mem_cons_self a l)
    have ihl := ih (fun c hc => h c (List.mem_cons_of_mem a hc))
    simp [List.takeWhile_cons, List.dropWhile_cons, ha, ihl.1, ihl.2]

theorem takeWhile_all_append (p : Char → Bool) :
    ∀ (d : List Char), (∀ c ∈ d, p c = true) → ∀ (x : Char), p x = false →
      ∀ (rest : List Char),
        (d ++ x :: rest).takeWhile p = d ∧ (d ++ x :: rest).dropWhile p = x :: rest := by
  intro d
  induction d with
  | nil =>
    intro _ x hx rest
    simp [List.takeWhile_cons, List.dropWhile_cons, hx]
  | cons a l ih =>
    intro h x hx rest
    have ha := h a (List.mem_cons_self a l)
    have ihl := ih (fun c hc => h c (List.mem_cons_of_mem a hc)) x hx rest
    simp [List.takeWhile_cons, List.dropWhile_cons, ha, ihl.1, ihl.2]


theorem digitGroup_takeWhile (l : List Char) (h : l.takeWhile isRegexDigit ≠ []) :
    digitGroup (l.takeWhile isRegexDigit) :=
  ⟨h, fun _ hc => List.mem_takeWhile_imp hc⟩

theorem split_at_stop (d r : List Char) (hd : ∀ c ∈ d, isRegexDigit c = true)
    (hr : r = [] ∨ ∃ x xs, r = x :: xs ∧ isRegexDigit x = false) :
    (d ++ r).takeWhile isRegexDigit = d ∧ (d ++ r).dropWhile isRegexDigit = r := by
  cases hr with
  | inl hnil =>
    subst hnil
    rw [List.append_nil]
    exact takeWhile_all isRegexDigit d hd
  | inr hcons =>
    obtain ⟨x, xs, hxs, hx⟩ := hcons
    subst hxs
    exact takeWhile_all_append isRegexDigit d hd x hx xs

theorem dotDigits_some (cs : List Char) (d r : List Char)
    (h : dotDigits cs = some (d, r)) : digitGroup d ∧ cs = '.' :: (d ++ r) := by
  cases cs with
  | nil => simp [dotDigits] at h
  | cons c rest =>
    simp only [dotDigits] at h
    by_cases hc : c = '.'
    · rw [if_pos hc] at h
      by_cases hd : rest.takeWhile isRegexDigit = []
      · rw [if_pos hd] at h; cases h
      · rw [if_neg hd] at h
        cases h
        refine ⟨digitGroup_takeWhile rest hd, ?_⟩
        rw [hc, List.takeWhile_append_dropWhile]
    · rw [if_neg hc] at h; cases h

theorem dotDigits_of_stop (d r : List Char) (hd : digitGroup d)
    (hr : r = [] ∨ ∃ x xs, r = x :: xs ∧ isRegexDigit x = false) :
    dotDigits ('.' :: (d ++ r)) = some (d, r) := by
  have h := split_at_stop d r hd.2 hr
  simp only [dotDigits, if_true]
  rw [h.1, h.2, if_neg hd.1]

/-- Forward characterization of the regex matcher: a successful match
decomposes the text as `v`, digits, `.`, digits, an optional `.` plus
digit patch group, and an optional single trailing newline (accepted by
`$`). -/
theorem vMatch_some_decomp (cs : List Char) (p : Option (List Char))
    (h : vMatch cs = some p) :
    ∃ d1 d2 nl, digitGroup d1 ∧ digitGroup d2 ∧ (nl = [] ∨ nl = ['\n']) ∧
      (p = none ∨ ∃ d3, p = some d3 ∧ digitGroup d3) ∧
      cs = 'v' :: (d1 ++ '.' :: (d2 ++ patchPart p ++ nl)) := by
  cases cs with
  | nil => simp [vMatch] at h
  | cons c rest =>
    simp only [vMatch] at h
    by_cases hc : c = 'v'
    · rw [if_pos hc] at h
      by_cases hd1 : rest.takeWhile isRegexDigit = []
      · rw [if_pos hd1] at h; cases h
      · rw [if_neg hd1] at h
        cases hdd : dotDigits (rest.dropWhile isRegexDigit) with
        | none => rw [hdd, Option.none_bind] at h; cases h
        | some pr2 =>
          obtain ⟨d2, r3⟩ := pr2
          rw [hdd, Option.some_bind] at h
          simp only [] at h
          obtain ⟨hdig2, hsplit2⟩ := dotDigits_some _ d2 r3 hdd
          by_cases hr3 : (r3 = [] ∨ r3 = ['\n'])
          · rw [if_pos hr3] at h
            cases h
            refine ⟨rest.takeWhile isRegexDigit, d2, r3,
              digitGroup_takeWhile rest hd1, hdig2, hr3, Or.inl rfl, ?_⟩
            rw [hc]
            conv_lhs => rw [← List.takeWhile_append_dropWhile isRegexDigit rest]
            rw [hsplit2]
            simp [patchPart]
          · rw [if_neg hr3] at h
            cases hdd2 : dotDigits r3 with
            | none => rw [hdd2, Option.none_bind] at h; cases h
            | some pr4 =>
              obtain ⟨d3, r5⟩ := pr4
              rw [hdd2, Option.some_bind] at h
              simp only [] at h
              obtain ⟨hdig3, hsplit3⟩ := dotDigits_some _ d3 r5 hdd2
              by_cases hr5 : (r5 = [] ∨ r5 = ['\n'])
              · rw [if_pos hr5] at h
                cases h
                refine ⟨rest.takeWhile isRegexDigit, d2, r5,
                  digitGroup_takeWhile rest hd1, hdig2, hr5,
                  Or.inr ⟨d3, rfl, hdig3⟩, ?_⟩
                rw [hc]
                conv_lhs => rw [← List.takeWhile_append_dropWhile isRegexDigit rest]
                rw [hsplit2, hsplit3]
                simp [patchPart]
              · rw [if_neg hr5] at h; cases h
    · rw [if_neg hc] at h; cases h

/-- Backward characterization: any such decomposition is matched, with
exactly that patch group. -/
theorem vMatch_of_decomp (d1 d2 : List Char) (p : Option (List Char)) (nl : List Char)
    (h1 : digitGroup d1) (h2 : digitGroup d2) (hnl : nl = [] ∨ nl = ['\n'])
    (hp : p = none ∨ ∃ d3, p = some d3 ∧ digitGroup d3) :
    vMatch ('v' :: (d1 ++ '.' :: (d2 ++ patchPart p ++ nl))) = some p := by
  have hdot : isRegexDigit '.' = false := by decide
  have hnl' : nl = [] ∨ ∃ x xs, nl = x :: xs ∧ isRegexDigit x = false := by
    cases hnl with
    | inl h => exact Or.inl h
    | inr h => exact Or.inr ⟨'\n', [], h, by decide⟩
  cases hp with
  | inl hnone =>
    subst hnone
    simp only [patchPart, List.append_nil]
    have hs1 := takeWhile_all_append isRegexDigit d1 h1.2 '.' hdot (d2 ++ nl)
    simp only [vMatch, if_true]
    rw [hs1.1, hs1.2, if_neg h1.1, dotDigits_of_stop d2 nl h2 hnl', Option.some_bind]
    simp only []
    rw [if_pos hnl]
  | inr hsome =>
    obtain ⟨d3, hpd3, h3⟩ := hsome
    subst hpd3
    simp only [patchPart, List.append_assoc, List.cons_append]
    have hs1 := takeWhile_all_append isRegexDigit d1 h1.2 '.' hdot
      (d2 ++ '.' :: (d3 ++ nl))
    simp only [vMatch, if_true]
    rw [hs1.1, hs1.2, if_neg h1.1,
      dotDigits_of_stop d2 ('.' :: (d3 ++ nl)) h2 (Or.inr ⟨'.', d3 ++ nl, rfl, hdot⟩),
      Option.some_bind]
    simp only []
    have hcond : ¬(('.' :: (d3 ++ nl)) = [] ∨ ('.' :: (d3 ++ nl)) = ['\n']) := by
      rintro (hA | hA)
      · exact List.cons_ne_nil _ _ hA
      · injection hA with hA1 hA2
        exact absurd hA1 (by decide)
    rw [if_neg hcond, dotDigits_of_stop d3 nl h3 hnl', Option.some_bind]
    simp only []
    rw [if_pos hnl]

/-- The original claim's strict reading fails on the program: a
decomposition as `v<ASCII digits>.<ASCII digits>` with optional
`.<ASCII digits>` patch and nothing after it cannot contain `x`, so a name
that does contain `x` (a non-digit other than `v`, `.` and `0`) admits no
such decomposition. -/
theorem no_strict_decomp (s : String) (x : Char) (hx : x ∈ s.data)
    (hxv : x ≠ 'v') (hxd : x ≠ '.') (hx0 : x ≠ '0')
    (hdig : Char.isDigit x = false) :
    ¬ ∃ d1 d2 p, s.data = 'v' :: (d1 ++ '.' :: (d2 ++ patchPart p)) ∧
      digitsOnly d1 ∧ digitsOnly d2 ∧ (p = none ∨ p = some ['0']) ∧
      (classify_tag s).1 = false := by
  rintro ⟨d1, d2, p, hdec, hd1, hd2, hp, -⟩
  rw [hdec] at hx
  simp only [List.mem_cons, List.mem_append] at hx
  rcases hx with h | h | h | h | h
  · exact hxv h
  · have := hd1.2 x h
    rw [hdig] at this
    cases this
  · exact hxd h
  · have := hd2.2 x h
    rw [hdig] at this
    cases this
  · cases hp with
    | inl hpn =>
      rw [hpn] at h
      exact absurd h (List.not_mem_nil x)
    | inr hps =>
      rw [hps] at h
      rcases List.mem_cons.mp h with h1 | h1
      · exact hxd h1
      · rcases List.mem_cons.mp h1 with h2 | h2
        · exact hx0 h2
        · exact absurd h2 (List.not_mem_nil x)

/-- C2 counterexample: the classifier's `is_major` is NOT equivalent, over
arbitrary strings, to a strict `v<digits>.<digits>[.<digits>]`
decomposition of the whole name with ASCII digits.  On `"v1.0\n"` the
program's regex matches (`$` accepts the position before a trailing
newline) and on `"v١.٢"` it matches too (`\d` accepts Arabic-Indic
digits): `is_major` is true for both, yet neither name admits the strict
decomposition. -/
theorem classify_major_strict_iff_fails :
    ((classify_tag "v1.0\n").2 = true
      ∧ ¬ ∃ d1 d2 p, ("v1.0\n").data = 'v' :: (d1 ++ '.' :: (d2 ++ patchPart p)) ∧
          digitsOnly d1 ∧ digitsOnly d2 ∧ (p = none ∨ p = some ['0']) ∧
          (classify_tag "v1.0\n").1 = false)
    ∧ ((classify_tag "v١.٢").2 = true
      ∧ ¬ ∃ d1 d2 p, ("v١.٢").data = 'v' :: (d1 ++ '.' :: (d2 ++ patchPart p)) ∧
          digitsOnly d1 ∧ digitsOnly d2 ∧ (p = none ∨ p = some ['0']) ∧
          (classify_tag "v١.٢").1 = false) :=
  ⟨⟨by decide,
    no_strict_decomp "v1.0\n" '\n' (by decide) (by decide) (by decide) (by decide)
      (by decide)⟩,
   ⟨by decide,
    no_strict_decomp "v١.٢" '١' (by decide) (by decide) (by decide) (by decide)
      (by decide)⟩⟩

/-- C2 (amended): the classifier is total (a function on all of `String`);
a name is a pre-release exactly when its lowercased text contains `rc`,
`beta`, `alpha` or `test` as a substring; and a name is major exactly when
it decomposes as `v<digits>.<digits>` with an optional `.<digits>` patch
group followed by at most one trailing newline — digits being Unicode
decimal digits, matching `re`'s `\d` and `$` semantics — is not a
pre-release, and the patch group is absent or exactly `0`. -/
theorem classify_tag_regex_spec (name : String) :
    ((classify_tag name).1 = true ↔
      ("rc".data <:+: lowerChars name ∨ "beta".data <:+: lowerChars name ∨
       "alpha".data <:+: lowerChars name ∨ "test".data <:+: lowerChars name))
    ∧ ((classify_tag name).2 = true ↔
      ∃ d1 d2 p nl, name.data = 'v' :: (d1 ++ '.' :: (d2 ++ patchPart p ++ nl)) ∧
        (nl = [] ∨ nl = ['\n']) ∧ digitGroup d1 ∧ digitGroup d2 ∧
        (p = none ∨ p = some ['0']) ∧ (classify_tag name).1 = false) := by
  have hfst : (classify_tag name).1 =
      (containsSub "rc".data (lowerChars name) || containsSub "beta".data (lowerChars name) ||
       containsSub "alpha".data (lowerChars name) ||
       containsSub "test".data (lowerChars name)) := rfl
  have hsnd : (classify_tag name).2 =
      (vMatch name.data).elim false (fun patch =>
        if (classify_tag name).1 then false
        else patch.elim true (fun q => decide (q = ['0']))) := rfl
  constructor
  · rw [hfst]
    simp [Bool.or_eq_true, containsSub_iff, or_assoc]
  · constructor
    · intro h
      rw [hsnd] at h
      cases hv : vMatch name.data with
      | none => rw [hv] at h; simp [Option.elim] at h
      | some patch =>
        rw [hv] at h
        simp only [Option.elim] at h
        by_cases hpre : (classify_tag name).1 = true
        · rw [if_pos hpre] at h; cases h
        · rw [if_neg hpre] at h
          obtain ⟨d1, d2, nl, hd1, hd2, hnl, _, hdec⟩ :=
            vMatch_some_decomp name.data patch hv
          have hnp : (classify_tag name).1 = false := by
            cases hb : (classify_tag name).1 with
            | true => exact absurd hb hpre
            | false => rfl
          cases patch with
          | none => exact ⟨d1, d2, none, nl, hdec, hnl, hd1, hd2, Or.inl rfl, hnp⟩
          | some pl =>
            simp only [Option.elim, decide_eq_true_eq] at h
            exact ⟨d1, d2, some pl, nl, hdec, hnl, hd1, hd2, Or.inr (by rw [h]), hnp⟩
    · intro hex
      obtain ⟨d1, d2, p, nl, hdec, hnl, hd1, hd2, hp, hnotpre⟩ := hex
      have hp3 : p = none ∨ ∃ d3, p = some d3 ∧ digitGroup d3 := by
        cases hp with
        | inl h => exact Or.inl h
        | inr h => exact Or.inr ⟨['0'], h, by decide⟩
      have hv : vMatch name.data = some p := by
        rw [hdec]; exact vMatch_of_decomp d1 d2 p nl hd1 hd2 hnl hp3
      rw [hsnd, hv]
      simp only [Option.elim]
      rw [if_neg (by simp [hnotpre])]
      cases hp with
      | inl h => rw [h]
      | inr h => rw [h]; simp


/-! ## Lemmas about the table writer's ordering -/

theorem lexLe_total : ∀ a b : List Char, lexLe a b = true ∨ lexLe b a = true := by
  intro a
  induction a with
  | nil => intro b; left; rfl
  | cons x as ih =>
    intro b
    cases b with
    | nil => right; rfl
    | cons y bs =>
      rcases lt_trichotomy x y with h | h | h
      · left; simp [lexLe, h]
      · subst h
        rcases ih bs with h' | h'
        · left; simp [lexLe, lt_irrefl, h']
        · right; simp [lexLe, lt_irrefl, h']
      · right; simp [lexLe, h]

theorem lexLe_trans : ∀ a b c : List Char,
    lexLe a b = true → lexLe b c = true → lexLe a c = true := by
  intro a
  induction a with
  | nil => intro b c _ _; rfl
  | cons x as ih =>
    intro b c h1 h2
    cases b with
    | nil => simp [lexLe] at h1
    | cons y bs =>
      cases c with
      | nil => simp [lexLe] at h2
      | cons z cs =>
        by_cases hxy : x < y
        · by_cases hyz : y < z
          · simp [lexLe, lt_trans hxy hyz]
          · by_cases hzy : z < y
            · simp [lexLe, hyz, hzy] at h2
            · have hyzeq : y = z := le_antisymm (le_of_not_lt hzy) (le_of_not_lt hyz)
              subst hyzeq
              simp [lexLe, hxy]
        · by_cases hyx : y < x
          · simp [lexLe, hxy, hyx] at h1
          · have hxyeq : x = y := le_antisymm (le_of_not_lt hyx) (le_of_not_lt hxy)
            subst hxyeq
            simp only [lexLe, lt_irrefl, if_false] at h1
            by_cases hxz : x < z
            · simp [lexLe, hxz]
            · by_cases hzx : z < x
              · simp [lexLe, hxz, hzx] at h2
              · have hxzeq : x = z := le_antisymm (le_of_not_lt hzx) (le_of_not_lt hxz)
                subst hxzeq
                simp only [lexLe, lt_irrefl, if_false] at h2 ⊢
                exact ih bs cs h1 h2

theorem lexLe_antisymm : ∀ a b : List Char,
    lexLe a b = true → lexLe b a = true → a = b := by
  intro a
  induction a with
  | nil =>
    intro b _ h2
    cases b with
    | nil => rfl
    | cons y bs => simp [lexLe] at h2
  | cons x as ih =>
    intro b h1 h2
    cases b with
    | nil => simp [lexLe] at h1
    | cons y bs =>
      by_cases hxy : x < y
      · simp [lexLe, hxy, lt_asymm hxy] at h2
      · by_cases hyx : y < x
        · simp [lexLe, hxy, hyx] at h1
        · have hxyeq : x = y := le_antisymm (le_of_not_lt hyx) (le_of_not_lt hxy)
          subst hxyeq
          simp only [lexLe, lt_irrefl, if_false] at h1 h2
          rw [ih bs h1 h2]

theorem pairLe_total (a b : List Char × List Char) :
    pairLe a b = true ∨ pairLe b a = true := by
  unfold pairLe
  by_cases h : a.1 = b.1
  · rw [if_pos h, if_pos h.symm]
    exact lexLe_total a.2 b.2
  · rw [if_neg h, if_neg (fun hc => h hc.symm)]
    exact lexLe_total a.1 b.1

theorem pairLe_trans (a b c : List Char × List Char)
    (h1 : pairLe a b = true) (h2 : pairLe b c = true) : pairLe a c = true := by
  unfold pairLe at h1 h2 ⊢
  by_cases hab : a.1 = b.1
  · rw [if_pos hab] at h1
    by_cases hbc : b.1 = c.1
    · rw [if_pos hbc] at h2
      rw [if_pos (hab.trans hbc)]
      exact lexLe_trans a.2 b.2 c.2 h1 h2
    · rw [if_neg hbc] at h2
      have hac : ¬ a.1 = c.1 := by rw [hab]; exact hbc
      rw [if_neg hac, hab]
      exact h2
  · rw [if_neg hab] at h1
    by_cases hbc : b.1 = c.1
    · have hac : ¬ a.1 = c.1 := fun hc => hab (hc.trans hbc.symm)
      rw [if_neg hac, ← hbc]
      exact h1
    · rw [if_neg hbc] at h2
      by_cases hac : a.1 = c.1
      · exfalso
        have h2' : lexLe b.1 a.1 = true := by rw [hac]; exact h2
        exact hab (lexLe_antisymm a.1 b.1 h1 h2')
      · rw [if_neg hac]
        exact lexLe_trans a.1 b.1 c.1 h1 h2

instance : IsTotal TagInfo saveLe :=
  ⟨fun a b => pairLe_total (saveKey a) (saveKey b)⟩

instance : IsTrans TagInfo saveLe :=
  ⟨fun a b c => pairLe_trans (saveKey a) (saveKey b) (saveKey c)⟩

/-- C9: the written table lists exactly the dedup mapping's records,
sorted by the key `(date_iso or "", name)` ascending — missing dates
compare as the empty string (sorting first), ties broken by name. -/
theorem save_csv_sorted (m : DMap) :
    List.Sorted saveLe (save_items m) ∧ (save_items m).Perm (m.map Prod.snd) :=
  ⟨List.sorted_insertionSort saveLe (m.map Prod.snd),
   List.perm_insertionSort saveLe (m.map Prod.snd)⟩

/-- The `(name, date_iso)` pairs the table reader yields from a row-level
file, with missing fields normalized to the empty string. -/
def readPairs (file : List (List String)) : List (String × String) :=
  (dictReadRows file).map (fun p => (p.1.getD "", p.2.getD ""))

/-- C5: writing a dedup mapping with the table writer and reading the file
back with the table reader yields exactly the mapping's `(name, date_iso)`
pairs (as a permutation, hence the same set), an absent date having become
the empty string. -/
theorem save_load_roundtrip (m : DMap) :
    (readPairs (save_csv m)).Perm
      (m.map (fun p => (p.2.name, p.2.date_iso.getD ""))) := by
  have h1 : readPairs (save_csv m) =
      (save_items m).map (fun t => (t.name, t.date_iso.getD "")) := by
    simp only [readPairs, save_csv, dictReadRows]
    rw [show (["name", "date_iso"] : List String).indexOf "name" = 0 from rfl,
        show (["name", "date_iso"] : List String).indexOf "date_iso" = 1 from rfl,
        List.map_map, List.map_map]
    rfl
  have h2 : ((m.map Prod.snd).map (fun t : TagInfo => (t.name, t.date_iso.getD ""))) =
      m.map (fun p => (p.2.name, p.2.date_iso.getD "")) := by
    rw [List.map_map]
    rfl
  rw [h1]
  exact h2 ▸ (List.perm_insertionSort saveLe (m.map Prod.snd)).map
    (fun t : TagInfo => (t.name, t.date_iso.getD ""))

/-! ## Lemmas about the series builder -/

theorem getLast?_cons_getD {α : Type} (a d : α) (l : List α) :
    ((a :: l).getLast?).getD d = (l.getLast?).getD a := by
  cases l with
  | nil => rfl
  | cons b l =>
    rw [List.getLast?_cons_cons]
    cases hl : (b :: l).getLast? with
    | none => simp [List.getLast?_eq_none_iff] at hl
    | some x => rfl

theorem range'_one_getLast (n : Nat) : ((List.range' 1 n).getLast?).getD 0 = n := by
  cases n with
  | zero => rfl
  | succ k =>
    rw [List.range'_concat, List.getLast?_concat]
    simp
    omega

theorem stablePairs_not_pre : ∀ (ts : List Tag) (c : Nat) (p : Tag × Nat),
    p ∈ stablePairs ts c → p.1.is_prerelease = false := by
  intro ts
  induction ts with
  | nil => intro c p h; simp [stablePairs] at h
  | cons t ts ih =>
    intro c p h
    by_cases hpre : t.is_prerelease
    · rw [stablePairs, if_pos hpre] at h
      exact ih c p h
    · rw [stablePairs, if_neg hpre] at h
      cases List.mem_cons.mp h with
      | inl hp =>
        rw [hp]
        exact Bool.not_eq_true _ ▸ (by simpa using hpre)
      | inr hp => exact ih (c + 1) p hp

theorem stablePairs_last : ∀ (ts : List Tag) (c : Nat),
    (((stablePairs ts c).map (fun p => p.2)).getLast?).getD c =
      c + (ts.filter (fun t => !t.is_prerelease)).length := by
  intro ts
  induction ts with
  | nil => intro c; simp [stablePairs]
  | cons t ts ih =>
    intro c
    by_cases hpre : t.is_prerelease
    · rw [stablePairs, if_pos hpre, List.filter_cons, if_neg (by simp [hpre])]
      exact ih c
    · rw [stablePairs, if_neg hpre, List.filter_cons, if_pos (by simp [hpre])]
      simp only [List.map_cons]
      rw [getLast?_cons_getD, ih (c + 1), List.length_cons]
      omega

theorem sum_map_ite_zero (a : Nat) : ∀ (ys : List Nat), a ∉ ys →
    (ys.map (fun y => if a = y then 1 else 0)).sum = 0 := by
  intro ys
  induction ys with
  | nil => intro _; rfl
  | cons y ys ih =>
    intro h
    have hy : ¬ a = y := fun hc => h (hc ▸ List.mem_cons_self y ys)
    have hys : a ∉ ys := fun hc => h (List.mem_cons_of_mem y hc)
    simp only [List.map_cons, List.sum_cons, if_neg hy, ih hys]

theorem sum_map_ite_single (a : Nat) : ∀ (ys : List Nat), ys.Nodup → a ∈ ys →
    (ys.map (fun y => if a = y then 1 else 0)).sum = 1 := by
  intro ys
  induction ys with
  | nil => intro _ h; simp at h
  | cons y ys ih =>
    intro hnd hmem
    have hnd' := List.nodup_cons.mp hnd
    by_cases hay : a = y
    · subst hay
      simp [List.map_cons, List.sum_cons, sum_map_ite_zero a ys hnd'.1]
    · have hays : a ∈ ys := by
        cases List.mem_cons.mp hmem with
        | inl h => exact absurd h hay
        | inr h => exact h
      simp only [List.map_cons, List.sum_cons, if_neg hay, ih hnd'.2 hays]

theorem sum_map_add (f g : Nat → Nat) : ∀ (ys : List Nat),
    (ys.map (fun y => f y + g y)).sum = (ys.map f).sum + (ys.map g).sum := by
  intro ys
  induction ys with
  | nil => rfl
  | cons y ys ih =>
    simp only [List.map_cons, List.sum_cons, ih]
    omega

theorem sum_counts_eq_length : ∀ (l ys : List Nat), ys.Nodup → (∀ x ∈ l, x ∈ ys) →
    (ys.map (fun y => List.count y l)).sum = l.length := by
  intro l
  induction l with
  | nil => intro ys _ _; simp
  | cons x l ih =>
    intro ys hnd hcover
    have hx : x ∈ ys := hcover x (List.mem_cons_self x l)
    have hfun : (fun y => List.count y (x :: l)) =
        (fun y => List.count y l + if x = y then 1 else 0) := by
      funext y
      rw [List.count_cons]
      simp [beq_iff_eq]
    rw [hfun, sum_map_add, ih ys hnd (fun z hz => hcover z (List.mem_cons_of_mem x hz)),
      sum_map_ite_single x ys hnd hx, List.length_cons]

theorem plotYears_nodup (tags : List Tag) : (plotYears tags).Nodup :=
  ((List.perm_insertionSort (· ≤ ·) (tagYears tags).dedup).symm).nodup
    (List.nodup_dedup (tagYears tags))

theorem mem_plotYears (tags : List Tag) (y : Nat) (h : y ∈ tagYears tags) :
    y ∈ plotYears tags :=
  ((List.perm_insertionSort (· ≤ ·) (tagYears tags).dedup).mem_iff).mpr
    (List.mem_dedup.mpr h)

/-- C3: for every chronologically sorted tag sequence, the per-year stable
counts sum to the final value of the stable cumulative series, the
per-year all-tag counts sum to the final all-tags cumulative count, and
every major annotation is a non-prerelease entry of the stable series. -/
theorem series_consistency (tags : List Tag) (_hchron : List.Pairwise dateLe tags) :
    (stable_counts_y tags).sum =
      (((build_cumulative_series tags).2.1.2).getLast?).getD 0
    ∧ (all_counts_y tags).sum = (((build_cumulative_series tags).1.2).getLast?).getD 0
    ∧ ∀ p ∈ majorAnnotations tags,
        p.1.is_prerelease = false ∧ p ∈ (build_cumulative_series tags).2.2 := by
  refine ⟨?_, ?_, ?_⟩
  · have hsum := sum_counts_eq_length
      (tagYears (tags.filter (fun t => !t.is_prerelease))) (plotYears tags)
      (plotYears_nodup tags) ?_
    · rw [stable_counts_y, hsum]
      show _ = (((stablePairs tags 0).map (fun p => p.2)).getLast?).getD 0
      rw [stablePairs_last tags 0, tagYears, List.length_map, Nat.zero_add]
    · intro x hx
      obtain ⟨t, ht, hty⟩ := List.mem_map.mp hx
      exact mem_plotYears tags x
        (hty ▸ List.mem_map.mpr ⟨t, (List.mem_filter.mp ht).1, rfl⟩)
  · have hsum := sum_counts_eq_length (tagYears tags) (plotYears tags)
      (plotYears_nodup tags) (fun x hx => mem_plotYears tags x hx)
    rw [all_counts_y, hsum]
    show _ = ((List.range' 1 tags.length).getLast?).getD 0
    rw [range'_one_getLast, tagYears, List.length_map]
  · intro p hp
    obtain ⟨hmem, hmaj⟩ := List.mem_filter.mp hp
    exact ⟨stablePairs_not_pre tags 0 p hmem, hmem⟩

theorem series_consistency_witness :
    (stable_counts_y
        [⟨"v1.0", ⟨2011, 1, 1, 0, 0, 0, some 0⟩, false, true⟩,
         ⟨"v1.1rc1", ⟨2012, 6, 1, 0, 0, 0, some 0⟩, true, false⟩]).sum =
      (((build_cumulative_series
        [⟨"v1.0", ⟨2011, 1, 1, 0, 0, 0, some 0⟩, false, true⟩,
         ⟨"v1.1rc1", ⟨2012, 6, 1, 0, 0, 0, some 0⟩, true, false⟩]).2.1.2).getLast?).getD 0 :=
  (series_consistency
    [⟨"v1.0", ⟨2011, 1, 1, 0, 0, 0, some 0⟩, false, true⟩,
     ⟨"v1.1rc1", ⟨2012, 6, 1, 0, 0, 0, some 0⟩, true, false⟩]
    (by decide)).1

/-! ## The end-to-end example -/

/-- The spec's end-to-end example rows, as a table file. -/
def exampleRows : List (List String) :=
  [["name", "date_iso"],
   ["v0.1.0", "2009-01-09T00:00:00Z"],
   ["v0.1.0rc1", "2009-01-05T00:00:00Z"],
   ["v1.0.0", "2011-01-01T00:00:00Z"]]

/-- C6: on the example rows, after date filtering and chronological
sorting the all-tags cumulative counts are `[1, 2, 3]`, the stable
cumulative counts are `[1, 2]` (the `rc1` tag excluded), and the major
annotations are exactly `(v0.1.0, 1)` and `(v1.0.0, 2)`. -/
theorem end_to_end_example :
    (load_tags exampleRows).map (fun t => t.name) = ["v0.1.0rc1", "v0.1.0", "v1.0.0"]
    ∧ (build_cumulative_series (load_tags exampleRows)).1.2 = [1, 2, 3]
    ∧ (build_cumulative_series (load_tags exampleRows)).2.1.2 = [1, 2]
    ∧ (majorAnnotations (load_tags exampleRows)).map (fun p => (p.1.name, p.2)) =
        [("v0.1.0", 1), ("v1.0.0", 2)] := by
  decide

/-! ## Lemmas about the renderer's row filtering -/

